import Mathlib

/-!
A verification development for sam2covWig, a streaming SAM-to-wiggle
coverage counter.

The Python source is embedded shallowly:

* the `deque` of window counts becomes a `List Nat` (front = index 0);
* the mutable module-level cursor (`current_chr`, `current_chr_len`,
  `current_window_start`) becomes an explicit `ProgState` record;
* lines printed to stdout become an accumulated `List OutLine`
  (the step-declaration lines and the per-window count lines; the
  one-off track definition line carries no algorithmic content);
* the single `SAMformatException` of the source becomes an explicit
  error type threaded through `Except`;
* Python's `ceil` over float division is modelled as exact integer
  ceiling division, and Python's `range(a, b, s)` (only used with a
  positive step) by its closed-form element count;
* `while` loops are compiled to structural recursion over an explicit
  iteration count that is driven by the original loop guard.  The
  source's loops terminate only for a positive window size, which the
  command-line collaborator guarantees (spec section 6); the fuel
  chosen below is sufficient exactly in that case.
-/

namespace Sam2CovWig

/-- Numeric value of a run of decimal digit characters, as Python's
`int` applied to the matched group. -/
def digitsVal (ds : List Char) : Nat :=
  ds.foldl (fun a c => a * 10 + (c.toNat - '0'.toNat)) 0

/-- The character class `[=DMX]` of the source regular expression
`([0-9]+)[=DMX]`: the CIGAR operations treated as consuming target
(reference) positions. -/
def isRefConsuming (c : Char) : Bool :=
  c == '=' || c == 'D' || c == 'M' || c == 'X'

/-- One left-to-right scan of `re.finditer(r'([0-9]+)[=DMX]', cigar)`:
at each position, a maximal run of digits immediately followed by a
consuming operation character contributes its numeric value; everything
else is skipped.  (A digit run that is not followed by a consuming
character fails at every start position inside the run, so the scan
resumes at the character after the run, exactly as the regex engine
does.)  `fuel` bounds the recursion; `cigar.length` is always enough. -/
def scanCigarGo : Nat → List Char → Nat
  | 0, _ => 0
  | fuel + 1, l =>
    match l with
    | [] => 0
    | c :: rest =>
      if c.isDigit then
        match rest.dropWhile Char.isDigit with
        | [] => 0
        | op :: rest2 =>
          if isRefConsuming op then
            digitsVal (c :: rest.takeWhile Char.isDigit) + scanCigarGo fuel rest2
          else
            scanCigarGo fuel (op :: rest2)
      else
        scanCigarGo fuel rest

/-- Source `sumTargetConsumingCigarOps`: the sum over all matches of
`([0-9]+)[=DMX]` of the numeric value of the digit group. -/
def sumTargetConsumingCigarOps (cigar : List Char) : Nat :=
  scanCigarGo cigar.length cigar

/-- Exact integer ceiling division for a positive divisor:
`ceilDivInt a w = ceil(a / w)` when `0 < w`.  The source computes
`ceil(...)` over Python float division; it is modelled exactly. -/
def ceilDivInt (a w : Int) : Int :=
  (a + w - 1) / w

/-- The grow loop `while len(windows) < num: windows.append(0)`.
It appends a zero `num.toNat - windows.length` times, which is exactly
how often the guard holds. -/
def growToAux : Nat → List Nat → List Nat
  | 0, ws => ws
  | n + 1, ws => growToAux n (ws ++ [0])

/-- Grow the window buffer with trailing zeros until its length is at
least `num` (no-op when `num` is not positive). -/
def growTo (ws : List Nat) (num : Int) : List Nat :=
  growToAux (num.toNat - ws.length) ws

/-- One iteration of the source's increment loop:
`windows.appendleft(windows.pop() + 1)` — remove the rightmost element,
add one, and push it on the left.  Python's `deque.pop` on an empty
deque would raise `IndexError`; that case is unreachable here because
the loop only runs when the buffer holds at least as many elements as
there are iterations. -/
def popIncrAppendleft (l : List Nat) : List Nat :=
  match l.getLast? with
  | some x => (x + 1) :: l.dropLast
  | none => []

/-- The increment loop, run `n` times. -/
def rotIncr : Nat → List Nat → List Nat
  | 0, l => l
  | n + 1, l => rotIncr n (popIncrAppendleft l)

/-- Python's `deque.rotate(-num)`: a left rotation by `num` positions
(modulo the length; a negative `num` rotates right, i.e. left by
`num` modulo the length, which `Int.emod` against the length yields). -/
def dequeRotateNeg (l : List Nat) (num : Int) : List Nat :=
  l.rotate (num % (l.length : Int)).toNat

/-- Source `incrementCountsForCoveredWindows`: compute the number of
covered windows `ceil((target_end + 1 - current_window_start) /
window_size)`, grow the buffer with trailing zeros to that length,
rotate the first that many elements to the back, and pop/increment/
push-left that many times.  The source also computes a dead local
`max_possible_windows_covered = int(target_len / window_size) + 1`
which is never read and is omitted; `target_start` and `target_len`
are likewise unread here but kept for signature fidelity. -/
def incrementCountsForCoveredWindows (windows : List Nat)
    (current_window_start target_start target_end target_len window_size : Int) :
    List Nat :=
  let num_windows_covered : Int :=
    ceilDivInt (target_end + 1 - current_window_start) window_size
  let grown := growTo windows num_windows_covered
  rotIncr num_windows_covered.toNat (dequeRotateNeg grown num_windows_covered)

/-- One alignment record, already split into the three fields the core
reads: RNAME (`fields[2]`), 1-based POS (`fields[3]`) and the CIGAR
string (`fields[5]`).  The unmapped sentinel is the CIGAR `['*']`. -/
structure SamRecord where
  target_name : String
  target_start : Int
  cigar : List Char
  deriving DecidableEq

/-- The mutable state of the main loop: the window-count buffer and the
cursor (`current_chr`, `current_chr_len`, `current_window_start`). -/
structure ProgState where
  windows : List Nat
  current_chr : String
  current_chr_len : Int
  current_window_start : Int
  deriving DecidableEq

/-- The source's single exception class, split by raise site: the
header check (`SN`/`LN` missing — the spec's HeaderFormatError) and the
RNAME-lookup check in the record loop (the spec's
ReferenceNotFoundError). -/
inductive SAMformatException where
  | missingSnLn
  | rnameNotInHeaders
  deriving DecidableEq

/-- One emitted output line: a `fixedStep` step declaration or a
per-window count. -/
inductive OutLine where
  | fixedStep (chrom : String) (start stepSize spanSize : Int)
  | count (n : Nat)
  deriving DecidableEq

/-- Number of elements of Python's `range(a, b, s)` for a positive
step `s` (the only way the source uses `range`). -/
def rangeCount (a b s : Int) : Nat :=
  ((b - a + s - 1) / s).toNat

/-- Python's `range(a, b, s)` for a positive step, as a list. -/
def pyRange (a b s : Int) : List Int :=
  (List.range (rangeCount a b s)).map (fun (i : Nat) => a + (i : Int) * s)

/-- The zero-padded tail of a reference flush, as plain numbers: the
buffered counts followed by one `0` per `range(current_window_start +
len(windows) * w, chr_len + 1, w)` element. -/
def flushCounts (w : Int) (windows : List Nat) (cws chrLen : Int) : List Nat :=
  windows ++ (pyRange (cws + (windows.length : Int) * w) (chrLen + 1) w).map (fun _ => 0)

/-- The flush block the source runs both on a reference transition
(lines printing each buffered window then the uncovered-tail zeros) and
after the input is exhausted.  Only output is produced; the buffer is
cleared by the caller. -/
def flushRef (w : Int) (windows : List Nat) (cws chrLen : Int) : List OutLine :=
  (flushCounts w windows cws chrLen).map OutLine.count

/-- The advance loop
`while target_start > current_window_start + WINDOW_SIZE - 1: ...`:
pop the front window count (0 when the buffer is empty), emit it, and
advance `current_window_start` by the window size.  Returns the new
buffer, the new `current_window_start`, and the emitted counts in
order.  `fuel` bounds the recursion. -/
def advanceGo (w target_start : Int) : Nat → List Nat → Int → List Nat × Int × List Nat
  | 0, ws, cws => (ws, cws, [])
  | fuel + 1, ws, cws =>
    if cws + w - 1 < target_start then
      let res := advanceGo w target_start fuel ws.tail (cws + w)
      (res.1, res.2.1, ws.headD 0 :: res.2.2)
    else
      (ws, cws, [])

/-- The advance loop with sufficient fuel: for `0 < w` the loop
advances by at least one per iteration, so `(target_start - cws).toNat`
iterations are never exhausted before the guard fails. -/
def advanceLoop (w target_start : Int) (ws : List Nat) (cws : Int) :
    List Nat × Int × List Nat :=
  advanceGo w target_start (target_start - cws).toNat ws cws

/-- The common tail of processing one mapped record: advance the window
cursor to the record's start, compute the span from the CIGAR, and
increment the covered windows.  Returns the new state and the counts
emitted by the advance loop. -/
def mappedStep (w : Int) (s : ProgState) (target_start : Int) (cigar : List Char) :
    ProgState × List OutLine :=
  let adv := advanceLoop w target_start s.windows s.current_window_start
  let target_len : Int := (sumTargetConsumingCigarOps cigar : Int)
  let target_end := target_start + target_len - 1
  ({ s with
      windows := incrementCountsForCoveredWindows adv.1 adv.2.1 target_start
        target_end target_len w,
      current_window_start := adv.2.1 },
   adv.2.2.map OutLine.count)

/-- Processing of one tabular input record by the main loop: skip the
unmapped sentinel; otherwise, on a reference change, flush the previous
reference, look the new name up in the header table (raising when it is
absent — note the flush output has already been printed at that point),
reset the cursor and emit the step declaration; then advance and
increment.  Returns the resulting state (or the raised exception) and
the output printed while processing this record. -/
def processRecord (chr_lens : List (String × Int)) (w : Int) (s : ProgState)
    (r : SamRecord) : Except SAMformatException ProgState × List OutLine :=
  if r.cigar = ['*'] then
    (Except.ok s, [])
  else if s.current_chr = r.target_name then
    let ms := mappedStep w s r.target_start r.cigar
    (Except.ok ms.1, ms.2)
  else
    let flushed := flushRef w s.windows s.current_window_start s.current_chr_len
    match chr_lens.lookup r.target_name with
    | none => (Except.error SAMformatException.rnameNotInHeaders, flushed)
    | some len =>
      let ms := mappedStep w ⟨[], r.target_name, len, 1⟩ r.target_start r.cigar
      (Except.ok ms.1,
       flushed ++ OutLine.fixedStep r.target_name 1 w w :: ms.2)

/-- The main record loop: process records in order, concatenating their
output; a raised exception aborts the loop (output printed before the
raise has already reached stdout and is kept). -/
def processRecords (chr_lens : List (String × Int)) (w : Int) :
    ProgState → List SamRecord → Except SAMformatException ProgState × List OutLine
  | s, [] => (Except.ok s, [])
  | s, r :: rs =>
    match processRecord chr_lens w s r with
    | (Except.ok s1, out) =>
      let res := processRecords chr_lens w s1 rs
      (res.1, out ++ res.2)
    | (Except.error e, out) => (Except.error e, out)

/-- The state before the first record: empty buffer, empty reference
name, zero length, window start 1. -/
def initState : ProgState := ⟨[], "", 0, 1⟩

/-- The record loop followed by the final flush of whatever reference
is active at end of input. -/
def runFrom (chr_lens : List (String × Int)) (w : Int) (s : ProgState)
    (records : List SamRecord) : Except SAMformatException Unit × List OutLine :=
  match processRecords chr_lens w s records with
  | (Except.ok s1, out) =>
    (Except.ok (),
     out ++ flushRef w s1.windows s1.current_window_start s1.current_chr_len)
  | (Except.error e, out) => (Except.error e, out)

/-- The whole tabular phase of the program: records processed from the
initial state, then the final flush.  (Argument parsing, the track
definition line and header-line parsing are external collaborators;
`chr_lens` is the mapping the header phase supplies.) -/
def runProgram (chr_lens : List (String × Int)) (w : Int)
    (records : List SamRecord) : Except SAMformatException Unit × List OutLine :=
  runFrom chr_lens w initState records

/-- The largest span (in consumed reference positions) of any single
record of the list; unmapped records contribute 0. -/
def maxSpanSeen (records : List SamRecord) : Nat :=
  (records.map (fun r =>
    if r.cigar = ['*'] then 0 else sumTargetConsumingCigarOps r.cigar)).foldr max 0

/-- The count lines of an output stream, in order. -/
def countLines (out : List OutLine) : List Nat :=
  out.filterMap (fun o =>
    match o with
    | OutLine.count n => some n
    | _ => none)

/-- A well-formed CIGAR string assembled from (digit-run, operation)
tokens, used to quantify over operation strings in claims about the
span calculator. -/
def renderCigar (ops : List (List Char × Char)) : List Char :=
  ops.foldr (fun p acc => p.1 ++ p.2 :: acc) []

/-- The nine CIGAR operation codes of the SAM specification. -/
def cigarOpChars : List Char :=
  ['M', 'I', 'D', 'N', 'S', 'H', 'P', '=', 'X']

/-! ### Lemmas about the span calculator -/

theorem scanCigarGo_nil (fuel : Nat) : scanCigarGo fuel [] = 0 := by
  cases fuel <;> rfl

theorem length_dropWhile_le (p : Char → Bool) (l : List Char) :
    (l.dropWhile p).length ≤ l.length := by
  induction l with
  | nil => simp
  | cons a l ih =>
    rw [List.dropWhile_cons]
    split
    · exact le_trans ih (by simp)
    · simp

/-- The scan result does not depend on the fuel, as long as the fuel
covers the length of the input. -/
theorem scanCigarGo_fuel (f1 : Nat) : ∀ (f2 : Nat) (l : List Char),
    l.length ≤ f1 → l.length ≤ f2 → scanCigarGo f1 l = scanCigarGo f2 l := by
  induction f1 with
  | zero =>
    intro f2 l h1 _
    have : l = [] := List.eq_nil_of_length_eq_zero (Nat.le_zero.mp h1)
    subst this
    rw [scanCigarGo_nil, scanCigarGo_nil]
  | succ n ih =>
    intro f2 l h1 h2
    match l with
    | [] => rw [scanCigarGo_nil, scanCigarGo_nil]
    | c :: rest =>
      match f2 with
      | 0 => simp at h2
      | m + 1 =>
        simp only [List.length_cons] at h1 h2
        simp only [scanCigarGo]
        by_cases hd : c.isDigit = true
        · rw [if_pos hd, if_pos hd]
          have hdw := length_dropWhile_le Char.isDigit rest
          match hx : rest.dropWhile Char.isDigit with
          | [] => rfl
          | op :: rest2 =>
            rw [hx] at hdw
            simp only [List.length_cons] at hdw
            cases hC : isRefConsuming op
            · simp only [hC, Bool.false_eq_true, if_false]
              exact ih m (op :: rest2) (by simp; omega) (by simp; omega)
            · simp only [hC, eq_self_iff_true, if_true]
              congr 1
              exact ih m rest2 (by omega) (by omega)
        · rw [if_neg hd, if_neg hd]
          exact ih m rest (by omega) (by omega)

theorem takeWhile_all_append (p : Char → Bool) (l1 : List Char) (x : Char)
    (l2 : List Char) (h1 : ∀ c ∈ l1, p c = true) (h2 : p x = false) :
    List.takeWhile p (l1 ++ x :: l2) = l1 := by
  induction l1 with
  | nil => simp [List.takeWhile_cons, h2]
  | cons a l ih =>
    have ha : p a = true := h1 a (by simp)
    simp only [List.cons_append, List.takeWhile_cons, ha, if_true]
    rw [ih (fun c hc => h1 c (by simp [hc]))]

theorem dropWhile_all_append (p : Char → Bool) (l1 : List Char) (x : Char)
    (l2 : List Char) (h1 : ∀ c ∈ l1, p c = true) (h2 : p x = false) :
    List.dropWhile p (l1 ++ x :: l2) = x :: l2 := by
  induction l1 with
  | nil => simp [List.dropWhile_cons, h2]
  | cons a l ih =>
    have ha : p a = true := h1 a (by simp)
    simp only [List.cons_append, List.dropWhile_cons, ha, if_true]
    exact ih (fun c hc => h1 c (by simp [hc]))

/-- Skipping a single non-digit character. -/
theorem sumCigar_cons_nondigit (c : Char) (l : List Char)
    (h : c.isDigit = false) :
    sumTargetConsumingCigarOps (c :: l) = sumTargetConsumingCigarOps l := by
  unfold sumTargetConsumingCigarOps
  simp only [List.length_cons, scanCigarGo, h, if_false]
  exact scanCigarGo_fuel _ _ _ (le_refl _) (by omega)

/-- Peeling one leading (digit run, operation) token off a CIGAR
string: it contributes its numeric value iff the operation consumes
reference positions. -/
theorem sumCigar_token (ds : List Char) (op : Char) (rest : List Char)
    (hne : ds ≠ []) (hdig : ∀ c ∈ ds, c.isDigit = true)
    (hop : op.isDigit = false) :
    sumTargetConsumingCigarOps (ds ++ op :: rest) =
      (if isRefConsuming op then digitsVal ds else 0) +
        sumTargetConsumingCigarOps rest := by
  match ds with
  | [] => exact absurd rfl hne
  | c :: ds0 =>
    have hc : c.isDigit = true := hdig c (by simp)
    have hds0 : ∀ x ∈ ds0, Char.isDigit x = true := fun x hx => hdig x (by simp [hx])
    unfold sumTargetConsumingCigarOps
    simp only [List.cons_append, List.length_cons, scanCigarGo, hc, if_true,
      dropWhile_all_append _ _ _ _ hds0 hop,
      takeWhile_all_append _ _ _ _ hds0 hop]
    have hfits : (op :: rest).length ≤ (ds0 ++ op :: rest).length := by simp
    cases hC : isRefConsuming op
    · simp only [Bool.false_eq_true, if_false, Nat.zero_add]
      have h1 : scanCigarGo (ds0 ++ op :: rest).length (op :: rest) =
          scanCigarGo (op :: rest).length (op :: rest) :=
        scanCigarGo_fuel _ _ _ hfits (le_refl _)
      have h2 : scanCigarGo (op :: rest).length (op :: rest) =
          scanCigarGo rest.length rest :=
        sumCigar_cons_nondigit op rest hop
      exact h1.trans h2
    · simp only [eq_self_iff_true, if_true]
      congr 1
      exact scanCigarGo_fuel _ _ _ (by simp; omega) (le_refl _)

theorem cigarOp_not_digit (c : Char) (h : c ∈ cigarOpChars) :
    c.isDigit = false := by
  simp only [cigarOpChars, List.mem_cons, List.not_mem_nil, or_false] at h
  rcases h with h | h | h | h | h | h | h | h | h <;> rw [h] <;> decide

/-- Claim C6: on every well-formed operation string, the span
calculator returns the sum of the lengths of exactly the operations
that consume reference positions — generic match/mismatch `M`,
deletion `D`, exact match `=` and mismatch `X` — while insertion `I`,
soft clip `S`, hard clip `H`, padding `P` and skip `N` contribute
nothing.  An input with no recognized operations yields 0 (the sum
below is empty), and the function is pure (it is a Lean function). -/
theorem C6_span_calculator (ops : List (List Char × Char))
    (h : ∀ p ∈ ops, p.1 ≠ [] ∧ (∀ c ∈ p.1, c.isDigit = true) ∧ p.2 ∈ cigarOpChars) :
    sumTargetConsumingCigarOps (renderCigar ops) =
      (ops.map (fun p =>
        if p.2 ∈ (['M', 'D', '=', 'X'] : List Char) then digitsVal p.1 else 0)).sum := by
  induction ops with
  | nil => rfl
  | cons p ops ih =>
    obtain ⟨hne, hdig, hop⟩ := h p (by simp)
    have hrest : ∀ q ∈ ops, q.1 ≠ [] ∧ (∀ c ∈ q.1, c.isDigit = true) ∧ q.2 ∈ cigarOpChars :=
      fun q hq => h q (by simp [hq])
    have hrender : renderCigar (p :: ops) = p.1 ++ p.2 :: renderCigar ops := rfl
    rw [hrender, sumCigar_token p.1 p.2 (renderCigar ops) hne hdig
          (cigarOp_not_digit p.2 hop), ih hrest]
    have hiff : (p.2 ∈ (['M', 'D', '=', 'X'] : List Char)) ↔ (isRefConsuming p.2 = true) := by
      simp only [cigarOpChars, List.mem_cons, List.not_mem_nil, or_false] at hop
      rcases hop with h | h | h | h | h | h | h | h | h <;> rw [h] <;> decide
    simp only [List.map_cons, List.sum_cons]
    by_cases hmem : p.2 ∈ (['M', 'D', '=', 'X'] : List Char)
    · simp [hmem, hiff.mp hmem]
    · have : ¬ (isRefConsuming p.2 = true) := fun hc => hmem (hiff.mpr hc)
      simp [hmem, this]

/-- Witness for C6 at the CIGAR `5M3I2D`: the `M` and `D` lengths
count, the `I` length does not. -/
theorem C6_witness :
    (∀ p ∈ ([(['5'], 'M'), (['3'], 'I'), (['2'], 'D')] : List (List Char × Char)),
      p.1 ≠ [] ∧ (∀ c ∈ p.1, c.isDigit = true) ∧ p.2 ∈ cigarOpChars) ∧
    sumTargetConsumingCigarOps
      (renderCigar [(['5'], 'M'), (['3'], 'I'), (['2'], 'D')]) = 7 := by
  refine ⟨by decide, ?_⟩
  rw [C6_span_calculator _ (by decide)]
  decide

/-! ### Lemmas about the window-buffer increment -/

theorem growToAux_eq (n : Nat) : ∀ ws : List Nat,
    growToAux n ws = ws ++ List.replicate n 0 := by
  induction n with
  | zero => intro ws; simp [growToAux]
  | succ m ih =>
    intro ws
    rw [growToAux, ih, List.append_assoc]
    simp [List.replicate_succ]

theorem growTo_eq (ws : List Nat) (num : Int) :
    growTo ws num = ws ++ List.replicate (num.toNat - ws.length) 0 :=
  growToAux_eq _ _

theorem rotIncr_spec (a : List Nat) : ∀ b : List Nat,
    rotIncr a.length (b ++ a) = a.map (· + 1) ++ b := by
  induction a using List.reverseRecOn with
  | nil => intro b; simp [rotIncr]
  | append_singleton a0 x ih =>
    intro b
    have hlen : (a0 ++ [x]).length = a0.length + 1 := by simp
    rw [hlen, rotIncr]
    have hassoc : b ++ (a0 ++ [x]) = (b ++ a0) ++ [x] := (List.append_assoc b a0 [x]).symm
    have hstep : popIncrAppendleft (b ++ (a0 ++ [x])) = (x + 1) :: (b ++ a0) := by
      rw [hassoc]
      unfold popIncrAppendleft
      simp
    rw [hstep]
    have hview : (x + 1) :: (b ++ a0) = ((x + 1) :: b) ++ a0 := rfl
    rw [hview, ih ((x + 1) :: b)]
    simp

theorem rotIncr_spec' (n : Nat) (a b : List Nat) (ha : a.length = n) :
    rotIncr n (b ++ a) = a.map (· + 1) ++ b := by
  subst ha
  exact rotIncr_spec a b

theorem dequeRotateNeg_eq (l : List Nat) (num : Int) (h : 0 ≤ num) :
    dequeRotateNeg l num = l.rotate num.toNat := by
  unfold dequeRotateNeg
  match l with
  | [] => simp [List.rotate_nil]
  | x :: xs =>
    obtain ⟨n, rfl⟩ : ∃ n : Nat, num = (n : Int) := ⟨num.toNat, (Int.toNat_of_nonneg h).symm⟩
    have hcast : ((n : Int) % (((x :: xs).length : Nat) : Int)) =
        ((n % (x :: xs).length : Nat) : Int) := by
      push_cast
      ring
    have h1 : ((n : Int) % (((x :: xs).length : Nat) : Int)).toNat = n % (x :: xs).length := by
      rw [hcast]
      exact Int.toNat_natCast _
    rw [h1, Int.toNat_natCast]
    exact List.rotate_mod _ _

theorem popIncrAppendleft_length (l : List Nat) :
    (popIncrAppendleft l).length = l.length := by
  induction l using List.reverseRecOn with
  | nil => rfl
  | append_singleton a x _ =>
    unfold popIncrAppendleft
    simp

theorem rotIncr_length (n : Nat) : ∀ l : List Nat,
    (rotIncr n l).length = l.length := by
  induction n with
  | zero => intro l; rfl
  | succ m ih =>
    intro l
    rw [rotIncr, ih, popIncrAppendleft_length]

theorem dequeRotateNeg_length (l : List Nat) (num : Int) :
    (dequeRotateNeg l num).length = l.length := by
  unfold dequeRotateNeg
  exact List.length_rotate l _

/-- The increment primitive never shrinks the buffer and grows it to
exactly the number of covered windows when that exceeds the current
length. -/
theorem incrementCounts_length (ws : List Nat) (cws ts te tl w : Int) :
    (incrementCountsForCoveredWindows ws cws ts te tl w).length =
      max ws.length (ceilDivInt (te + 1 - cws) w).toNat := by
  simp only [incrementCountsForCoveredWindows]
  rw [rotIncr_length, dequeRotateNeg_length, growTo_eq]
  simp only [List.length_append, List.length_replicate]
  omega

/-- Shape of the increment primitive for a non-negative window count:
pad the buffer to length `k`, add one to each of the first `k`
elements, and keep everything else. -/
theorem incrementCounts_spec (ws : List Nat) (cws ts te tl w : Int)
    (hk : 0 ≤ ceilDivInt (te + 1 - cws) w) :
    incrementCountsForCoveredWindows ws cws ts te tl w =
      ((ws ++ List.replicate ((ceilDivInt (te + 1 - cws) w).toNat - ws.length) 0).take
          (ceilDivInt (te + 1 - cws) w).toNat).map (· + 1) ++
        (ws ++ List.replicate ((ceilDivInt (te + 1 - cws) w).toNat - ws.length) 0).drop
          (ceilDivInt (te + 1 - cws) w).toNat := by
  simp only [incrementCountsForCoveredWindows]
  rw [growTo_eq, dequeRotateNeg_eq _ _ hk]
  have hextlen : (ceilDivInt (te + 1 - cws) w).toNat ≤
      (ws ++ List.replicate ((ceilDivInt (te + 1 - cws) w).toNat - ws.length) 0).length := by
    simp only [List.length_append, List.length_replicate]
    omega
  rw [List.rotate_eq_drop_append_take hextlen]
  exact rotIncr_spec' _ _ _ (by rw [List.length_take]; omega)

/-- Claim C1: for every buffer, window size `w > 0`, cursor
`current_window_start > 0` and closed span `[target_start, target_end]`
starting inside the front window with `target_end ≥ target_start`,
`incrementCountsForCoveredWindows` pads the buffer with trailing zeros
until its length is at least `k = ceil((target_end + 1 -
current_window_start) / w)`, adds exactly 1 to each of the first `k`
elements, and leaves the order and every element beyond the first `k`
unchanged. -/
theorem C1_increment_span (windows : List Nat) (cws ts te tl w : Int)
    (hw : 0 < w) (hcws : 0 < cws) (h1 : cws ≤ ts) (h2 : ts ≤ cws + w - 1)
    (h3 : ts ≤ te) :
    incrementCountsForCoveredWindows windows cws ts te tl w =
      ((windows ++ List.replicate ((ceilDivInt (te + 1 - cws) w).toNat - windows.length) 0).take
          (ceilDivInt (te + 1 - cws) w).toNat).map (· + 1) ++
        (windows ++ List.replicate ((ceilDivInt (te + 1 - cws) w).toNat - windows.length) 0).drop
          (ceilDivInt (te + 1 - cws) w).toNat := by
  apply incrementCounts_spec
  unfold ceilDivInt
  apply Int.ediv_nonneg _ (by omega)
  omega

/-- Witness for C1: buffer `[2, 0]`, window start 1, span `[3, 12]`,
window size 5: `k = 3`, the buffer grows to `[2, 0, 0]` and becomes
`[3, 1, 1]`. -/
theorem C1_witness :
    (0 : Int) < 5 ∧ incrementCountsForCoveredWindows [2, 0] 1 3 12 10 5 = [3, 1, 1] :=
  ⟨by decide,
   (C1_increment_span [2, 0] 1 3 12 10 5 (by decide) (by decide) (by decide)
      (by decide) (by decide)).trans (by decide)⟩

/-! ### Per-record behaviour: unmapped skip, zero spans -/

/-- Records carrying the unmapped sentinel are skipped with no effect
at all. -/
theorem processRecord_star (cl : List (String × Int)) (w : Int) (s : ProgState)
    (name : String) (start : Int) :
    processRecord cl w s ⟨name, start, ['*']⟩ = (Except.ok s, []) := by
  unfold processRecord
  rw [if_pos rfl]

/-- The advance loop does nothing when the record starts at or before
the end of the front window. -/
theorem advanceLoop_noop (w ts : Int) (ws : List Nat) (cws : Int)
    (h : ¬ (cws + w - 1 < ts)) : advanceLoop w ts ws cws = (ws, cws, []) := by
  unfold advanceLoop
  cases h2 : (ts - cws).toNat with
  | zero => rfl
  | succ n => simp [advanceGo, h]

/-- Claim C10 (counterexample): a mapped record with zero span (CIGAR
`2I`) starting at position 3, strictly inside the front window
`[1, 5]`, does change the buffer: the front window's count is
incremented from nothing to `[1]`.  The claim says the buffer is left
exactly unchanged. -/
theorem C10_counterexample :
    processRecord [("chr1", 10)] 5 ⟨[], "chr1", 10, 1⟩ ⟨"chr1", 3, ['2', 'I']⟩ =
      (Except.ok (⟨[1], "chr1", 10, 1⟩ : ProgState), []) ∧
    (⟨[1], "chr1", 10, 1⟩ : ProgState) ≠ (⟨[], "chr1", 10, 1⟩ : ProgState) := by
  constructor
  · rfl
  · decide

/-- Claim C10 (amended): a mapped record with zero span whose start
lies within the current front window raises no error, emits no output
and leaves the cursor unchanged; the window buffer is unchanged exactly
when the start equals `current_window_start`, and otherwise the front
window's count is incremented by one (a zero being appended first when
the buffer is empty). -/
theorem C10_zero_span_effect (cl : List (String × Int)) (w : Int) (s : ProgState)
    (r : SamRecord) (hw : 0 < w) (hstar : ¬ r.cigar = ['*'])
    (hchr : s.current_chr = r.target_name)
    (h0 : sumTargetConsumingCigarOps r.cigar = 0)
    (hlo : s.current_window_start ≤ r.target_start)
    (hhi : r.target_start ≤ s.current_window_start + w - 1) :
    processRecord cl w s r =
      (Except.ok { s with windows :=
          if r.target_start = s.current_window_start then s.windows
          else (s.windows.headD 0 + 1) :: s.windows.tail }, []) := by
  obtain ⟨ws, chr, len, cws⟩ := s
  simp only at hchr hlo hhi
  unfold processRecord
  rw [if_neg hstar, if_pos hchr]
  unfold mappedStep
  simp only
  rw [advanceLoop_noop _ _ _ _ (by omega)]
  simp only [h0, Nat.cast_zero, List.map_nil]
  have hnum : r.target_start + 0 - 1 + 1 - cws = r.target_start - cws := by ring
  by_cases heq : r.target_start = cws
  · have hk0 : ceilDivInt (r.target_start + 0 - 1 + 1 - cws) w = 0 := by
      rw [hnum, heq]
      unfold ceilDivInt
      apply Int.ediv_eq_zero_of_lt (by omega) (by omega)
    rw [incrementCounts_spec _ _ _ _ _ _ (by rw [hk0])]
    rw [hk0]
    simp only [Int.toNat_zero, Nat.zero_sub, List.replicate_zero, List.append_nil,
      List.take_zero, List.map_nil, List.drop_zero, List.nil_append]
    rw [if_pos heq]
  · have hk1 : ceilDivInt (r.target_start + 0 - 1 + 1 - cws) w = 1 := by
      rw [hnum]
      unfold ceilDivInt
      have hsplit : r.target_start - cws + w - 1 = (r.target_start - cws - 1) + 1 * w := by ring
      rw [hsplit, Int.add_mul_ediv_right _ _ (by omega : w ≠ 0),
          Int.ediv_eq_zero_of_lt (by omega) (by omega)]
      ring
    rw [incrementCounts_spec _ _ _ _ _ _ (by rw [hk1]; decide), hk1]
    rw [if_neg heq]
    match ws with
    | [] => simp
    | a :: ws0 => simp

/-- Witness for C10 (amended): start 3 in window `[1, 5]`, zero-span
CIGAR `2I`, buffer empty: the result is `[1]` with no output and no
error. -/
theorem C10_witness :
    processRecord [("chr1", 10)] 5 (⟨[2], "chr1", 10, 1⟩ : ProgState) ⟨"chr1", 3, ['2', 'I']⟩ =
      (Except.ok (⟨[3], "chr1", 10, 1⟩ : ProgState), []) :=
  (C10_zero_span_effect [("chr1", 10)] 5 ⟨[2], "chr1", 10, 1⟩ ⟨"chr1", 3, ['2', 'I']⟩
    (by decide) (by decide) (by decide) (by decide) (by decide) (by decide)).trans
    (by rfl)

/-- Claim C2 (counterexample): a mapped record whose CIGAR `5I` yields
zero consumed reference positions does NOT make the program fail — the
whole run completes successfully (the zero-span check the spec
describes is absent from the code; the corresponding `assert` is
commented out in the source). -/
theorem C2_counterexample :
    runProgram [("chr1", 10)] 5 [⟨"chr1", 1, ['5', 'I']⟩] =
      (Except.ok (), [OutLine.fixedStep "chr1" 1 5 5, OutLine.count 0, OutLine.count 0]) := by
  rfl

/-- Claim C2 (amended): a mapped record whose operation string yields
zero consumed reference positions raises no error: when its reference
is the current one, processing simply goes through the ordinary
advance/increment path and returns normally. -/
theorem C2_zero_span_no_error (cl : List (String × Int)) (w : Int) (s : ProgState)
    (r : SamRecord) (hstar : ¬ r.cigar = ['*'])
    (h0 : sumTargetConsumingCigarOps r.cigar = 0)
    (hchr : s.current_chr = r.target_name) :
    (processRecord cl w s r).1 = Except.ok (mappedStep w s r.target_start r.cigar).1 := by
  unfold processRecord
  rw [if_neg hstar, if_pos hchr]

/-- Witness for C2 (amended) at the zero-span record `chr1 1 5I`. -/
theorem C2_witness :
    (processRecord [("chr1", 10)] 5 (⟨[], "chr1", 10, 1⟩ : ProgState)
      ⟨"chr1", 1, ['5', 'I']⟩).1 = Except.ok (⟨[], "chr1", 10, 1⟩ : ProgState) :=
  (C2_zero_span_no_error [("chr1", 10)] 5 ⟨[], "chr1", 10, 1⟩ ⟨"chr1", 1, ['5', 'I']⟩
    (by decide) (by decide) (by decide)).trans (by rfl)

/-! ### Lemmas about the advance loop and the record loop -/

theorem tail_drop_succ (ws : List Nat) (m : Nat) : ws.tail.drop m = ws.drop (m + 1) := by
  cases ws <;> simp

theorem headD_take (ws : List Nat) (m : Nat) :
    ws.headD 0 :: (ws.tail.take m ++ List.replicate (m - ws.tail.length) 0) =
      ws.take (m + 1) ++ List.replicate ((m + 1) - ws.length) 0 := by
  cases ws with
  | nil => simp [List.replicate_succ]
  | cons a l => simp [Nat.succ_sub_succ]

/-- Full characterisation of the advance loop (given enough fuel): it
pops `m` front elements (padding with zeros when the buffer runs out),
advances the window start by `m` steps, and stops with the record start
inside the new front window; when it ran at all, the new window start
is at most the record start. -/
theorem advanceGo_spec (w ts : Int) (hw : 0 < w) :
    ∀ (fuel : Nat) (ws : List Nat) (cws : Int), ts - cws ≤ (fuel : Int) →
      ∃ m : Nat,
        advanceGo w ts fuel ws cws =
          (ws.drop m, cws + (m : Int) * w, ws.take m ++ List.replicate (m - ws.length) 0) ∧
        ts ≤ cws + (m : Int) * w + w - 1 ∧ (m = 0 ∨ cws + (m : Int) * w ≤ ts) := by
  intro fuel
  induction fuel with
  | zero =>
    intro ws cws hf
    refine ⟨0, by simp [advanceGo], by push_cast at hf ⊢; omega, Or.inl rfl⟩
  | succ f ih =>
    intro ws cws hf
    by_cases hc : cws + w - 1 < ts
    · obtain ⟨m, heq, hpost, hleft⟩ := ih ws.tail (cws + w) (by push_cast at hf ⊢; omega)
      refine ⟨m + 1, ?_, ?_, Or.inr ?_⟩
      · simp only [advanceGo, if_pos hc, heq]
        simp only [Prod.mk.injEq]
        refine ⟨tail_drop_succ ws m, by push_cast; ring, headD_take ws m⟩
      · push_cast at hpost ⊢
        linarith
      · rcases hleft with h0 | hmore
        · subst h0
          push_cast
          linarith
        · push_cast at hmore ⊢
          linarith
    · exact ⟨0, by simp [advanceGo, hc], by push_cast; omega, Or.inl rfl⟩

theorem advanceLoop_spec (w ts : Int) (hw : 0 < w) (ws : List Nat) (cws : Int) :
    ∃ m : Nat,
      advanceLoop w ts ws cws =
        (ws.drop m, cws + (m : Int) * w, ws.take m ++ List.replicate (m - ws.length) 0) ∧
      ts ≤ cws + (m : Int) * w + w - 1 ∧ (m = 0 ∨ cws + (m : Int) * w ≤ ts) :=
  advanceGo_spec w ts hw _ ws cws (Int.self_le_toNat _)

/-- Records carrying the unmapped sentinel are skipped with no effect,
whatever the rest of the record holds. -/
theorem processRecord_unmapped (cl : List (String × Int)) (w : Int) (s : ProgState)
    (r : SamRecord) (h : r.cigar = ['*']) :
    processRecord cl w s r = (Except.ok s, []) := by
  unfold processRecord
  rw [if_pos h]

theorem processRecord_same_chr (cl : List (String × Int)) (w : Int) (s : ProgState)
    (r : SamRecord) (hstar : ¬ r.cigar = ['*'])
    (hchr : s.current_chr = r.target_name) :
    processRecord cl w s r =
      (Except.ok (mappedStep w s r.target_start r.cigar).1,
       (mappedStep w s r.target_start r.cigar).2) := by
  unfold processRecord
  rw [if_neg hstar, if_pos hchr]

theorem processRecord_transition (cl : List (String × Int)) (w : Int) (s : ProgState)
    (r : SamRecord) (len : Int) (hstar : ¬ r.cigar = ['*'])
    (hchr : ¬ s.current_chr = r.target_name)
    (hlk : cl.lookup r.target_name = some len) :
    processRecord cl w s r =
      (Except.ok (mappedStep w ⟨[], r.target_name, len, 1⟩ r.target_start r.cigar).1,
       flushRef w s.windows s.current_window_start s.current_chr_len ++
         OutLine.fixedStep r.target_name 1 w w ::
           (mappedStep w ⟨[], r.target_name, len, 1⟩ r.target_start r.cigar).2) := by
  unfold processRecord
  rw [if_neg hstar, if_neg hchr, hlk]

theorem processRecord_not_found (cl : List (String × Int)) (w : Int) (s : ProgState)
    (r : SamRecord) (hstar : ¬ r.cigar = ['*'])
    (hchr : ¬ s.current_chr = r.target_name)
    (hlk : cl.lookup r.target_name = none) :
    processRecord cl w s r =
      (Except.error SAMformatException.rnameNotInHeaders,
       flushRef w s.windows s.current_window_start s.current_chr_len) := by
  unfold processRecord
  rw [if_neg hstar, if_neg hchr, hlk]

/-- Skipping an unmapped record in the middle of the stream changes
nothing about the rest of the run. -/
theorem processRecords_star_middle (cl : List (String × Int)) (w : Int)
    (rs1 : List SamRecord) (name : String) (start : Int) (rs2 : List SamRecord) :
    ∀ s : ProgState,
      processRecords cl w s (rs1 ++ (⟨name, start, ['*']⟩ : SamRecord) :: rs2) =
        processRecords cl w s (rs1 ++ rs2) := by
  induction rs1 with
  | nil =>
    intro s
    simp only [List.nil_append, processRecords,
      processRecord_unmapped cl w s ⟨name, start, ['*']⟩ rfl]
  | cons r rs1 ih =>
    intro s
    simp only [List.cons_append, List.append_eq, processRecords]
    rcases hpr : processRecord cl w s r with ⟨res, out⟩
    cases res with
    | ok s1 => simp only [ih s1]
    | error e => rfl

/-- Claim C9: a record carrying the unmapped sentinel `*` as its
operation string changes nothing, regardless of its position in the
stream or its reference name: the run with the record is the run
without it — same errors, same cursor evolution, same emitted output. -/
theorem C9_unmapped_skip (cl : List (String × Int)) (w : Int) (name : String)
    (start : Int) (rs1 rs2 : List SamRecord) :
    runProgram cl w (rs1 ++ (⟨name, start, ['*']⟩ : SamRecord) :: rs2) =
      runProgram cl w (rs1 ++ rs2) := by
  unfold runProgram runFrom
  rw [processRecords_star_middle]

/-- Claim C7: a mapped record whose reference name is absent from the
header table makes the run fail with the RNAME-not-in-headers error
(the spec's ReferenceNotFoundError), aborting immediately: nothing
after the record is processed, and the only output printed while
handling it is the flush of the previous reference — nothing for the
new reference. -/
theorem C7_reference_not_found (cl : List (String × Int)) (w : Int) (s : ProgState)
    (r : SamRecord) (rs : List SamRecord) (hstar : ¬ r.cigar = ['*'])
    (hchr : ¬ s.current_chr = r.target_name)
    (hlk : cl.lookup r.target_name = none) :
    processRecords cl w s (r :: rs) =
      (Except.error SAMformatException.rnameNotInHeaders,
       flushRef w s.windows s.current_window_start s.current_chr_len) := by
  simp only [processRecords, processRecord_not_found cl w s r hstar hchr hlk]

/-- Witness for C7: a record naming `chrX`, absent from a header that
declares only `chr1`, aborts the run before its successor record and
emits nothing (the previous reference here is the initial empty one,
whose flush is empty). -/
theorem C7_witness :
    processRecords [("chr1", 10)] 5 initState
      [⟨"chrX", 1, ['5', 'M']⟩, ⟨"chr1", 1, ['5', 'M']⟩] =
      (Except.error SAMformatException.rnameNotInHeaders, []) :=
  (C7_reference_not_found [("chr1", 10)] 5 initState ⟨"chrX", 1, ['5', 'M']⟩
    [⟨"chr1", 1, ['5', 'M']⟩] (by decide) (by decide) (by rfl)).trans (by rfl)

/-- Claim C5: with a header declaring `chr1` of length 10, window size
5 and one mapped alignment at start 7 whose operation string yields
span 2, the program emits exactly two count lines for `chr1`: 0 for the
first window and 1 for the second. -/
theorem C5_scenario_B (c : List Char) (h1 : ¬ c = ['*'])
    (h2 : sumTargetConsumingCigarOps c = 2) :
    runProgram [("chr1", 10)] 5 [⟨"chr1", 7, c⟩] =
      (Except.ok (), [OutLine.fixedStep "chr1" 1 5 5, OutLine.count 0, OutLine.count 1]) := by
  unfold runProgram runFrom
  have hchr : ¬ (initState).current_chr = "chr1" := by decide
  have hlk : List.lookup "chr1" [("chr1", (10 : Int))] = some 10 := by rfl
  have hstep : processRecords [("chr1", 10)] 5 initState [⟨"chr1", 7, c⟩] =
      (Except.ok (⟨[1], "chr1", 10, 6⟩ : ProgState),
       [OutLine.fixedStep "chr1" 1 5 5, OutLine.count 0]) := by
    simp only [processRecords,
      processRecord_transition [("chr1", 10)] 5 initState ⟨"chr1", 7, c⟩ 10 h1 hchr hlk]
    simp only [mappedStep, h2]
    rfl
  rw [hstep]
  rfl

/-- Witness for C5 at the CIGAR `2M`. -/
theorem C5_witness :
    runProgram [("chr1", 10)] 5 [⟨"chr1", 7, ['2', 'M']⟩] =
      (Except.ok (), [OutLine.fixedStep "chr1" 1 5 5, OutLine.count 0, OutLine.count 1]) :=
  C5_scenario_B ['2', 'M'] (by decide) (by rfl)

/-! ### No output for references that never occur in a record -/

theorem flushRef_no_step (w : Int) (ws : List Nat) (cws chrLen : Int)
    (R : String) (beg st sp : Int) :
    OutLine.fixedStep R beg st sp ∉ flushRef w ws cws chrLen := by
  unfold flushRef
  simp

theorem step_in_processRecord (cl : List (String × Int)) (w : Int) (s : ProgState)
    (r : SamRecord) (R : String) (beg st sp : Int)
    (h : OutLine.fixedStep R beg st sp ∈ (processRecord cl w s r).2) :
    R = r.target_name := by
  unfold processRecord at h
  by_cases hstar : r.cigar = ['*']
  · rw [if_pos hstar] at h
    simp at h
  · rw [if_neg hstar] at h
    by_cases hchr : s.current_chr = r.target_name
    · rw [if_pos hchr] at h
      unfold mappedStep at h
      simp at h
    · rw [if_neg hchr] at h
      cases hlk : cl.lookup r.target_name with
      | none =>
        rw [hlk] at h
        exact absurd h (flushRef_no_step _ _ _ _ _ _ _ _)
      | some len =>
        rw [hlk] at h
        simp only [List.mem_append, List.mem_cons] at h
        rcases h with h | h | h
        · exact absurd h (flushRef_no_step _ _ _ _ _ _ _ _)
        · exact (OutLine.fixedStep.injEq _ _ _ _ _ _ _ _).mp h |>.1
        · unfold mappedStep at h
          simp at h

theorem step_in_processRecords (cl : List (String × Int)) (w : Int)
    (rs : List SamRecord) : ∀ (s : ProgState) (R : String) (beg st sp : Int),
    OutLine.fixedStep R beg st sp ∈ (processRecords cl w s rs).2 →
    ∃ r ∈ rs, r.target_name = R := by
  induction rs with
  | nil =>
    intro s R beg st sp h
    simp [processRecords] at h
  | cons r rs ih =>
    intro s R beg st sp h
    simp only [processRecords] at h
    rcases hpr : processRecord cl w s r with ⟨res, out⟩
    rw [hpr] at h
    cases res with
    | ok s1 =>
      simp only [List.mem_append] at h
      rcases h with h | h
      · exact ⟨r, by simp, (step_in_processRecord cl w s r R beg st sp
          (by rw [hpr]; exact h)).symm⟩
      · obtain ⟨r1, hr1, hname⟩ := ih s1 R beg st sp h
        exact ⟨r1, by simp [hr1], hname⟩
    | error e =>
      exact ⟨r, by simp, (step_in_processRecord cl w s r R beg st sp
        (by rw [hpr]; exact h)).symm⟩

theorem step_in_runProgram (cl : List (String × Int)) (w : Int)
    (records : List SamRecord) (R : String) (beg st sp : Int)
    (hnone : ∀ r ∈ records, ¬ r.target_name = R) :
    OutLine.fixedStep R beg st sp ∉ (runProgram cl w records).2 := by
  intro h
  unfold runProgram runFrom at h
  rcases hq : processRecords cl w initState records with ⟨res, out⟩
  rw [hq] at h
  cases res with
  | ok s1 =>
    simp only [List.mem_append] at h
    rcases h with h | h
    · obtain ⟨r, hr, hname⟩ := step_in_processRecords cl w records initState R beg st sp
        (by rw [hq]; exact h)
      exact hnone r hr hname
    · exact flushRef_no_step _ _ _ _ _ _ _ _ h
  | error e =>
    obtain ⟨r, hr, hname⟩ := step_in_processRecords cl w records initState R beg st sp
      (by rw [hq]; exact h)
    exact hnone r hr hname

/-- Claim C3 (counterexample): in scenario D — header declaring `chr1`
(length 5) and `chr2` (length 5), window size 5, a single alignment on
`chr2` at start 1 with span 5 — the emitted counts are `[1]`, not the
claimed `[0, 1]`: no zero line is ever produced for `chr1`, which never
occurs in a record. -/
theorem C3_counterexample :
    countLines (runProgram [("chr1", 5), ("chr2", 5)] 5 [⟨"chr2", 1, ['5', 'M']⟩]).2 = [1] ∧
    ¬ countLines
        (runProgram [("chr1", 5), ("chr2", 5)] 5 [⟨"chr2", 1, ['5', 'M']⟩]).2 = [0, 1] := by
  constructor
  · rfl
  · decide

/-- Claim C3 (amended): a reference declared in the header but carrying
no alignment record produces no output at all — the program emits step
declarations (and hence windows) only for references that occur in some
record.  In scenario D the whole output is the `chr2` step declaration
followed by the single count 1; nothing is emitted for `chr1`. -/
theorem C3_no_output_for_uncovered_reference :
    runProgram [("chr1", 5), ("chr2", 5)] 5 [⟨"chr2", 1, ['5', 'M']⟩] =
      (Except.ok (), [OutLine.fixedStep "chr2" 1 5 5, OutLine.count 1]) ∧
    ∀ (cl : List (String × Int)) (w : Int) (records : List SamRecord) (R : String)
      (beg st sp : Int), (∀ r ∈ records, ¬ r.target_name = R) →
      OutLine.fixedStep R beg st sp ∉ (runProgram cl w records).2 :=
  ⟨by rfl, fun cl w records R beg st sp h => step_in_runProgram cl w records R beg st sp h⟩

/-- Witness for C3 (amended): `chr1` occurs in no record of scenario D,
so no `chr1` step declaration appears in its output. -/
theorem C3_witness :
    OutLine.fixedStep "chr1" 1 5 5 ∉
      (runProgram [("chr1", 5), ("chr2", 5)] 5 [⟨"chr2", 1, ['5', 'M']⟩]).2 :=
  C3_no_output_for_uncovered_reference.2 [("chr1", 5), ("chr2", 5)] 5
    [⟨"chr2", 1, ['5', 'M']⟩] "chr1" 1 5 5 (by decide)

/-! ### The buffer-size bound -/

theorem ceilDivInt_nonneg (a w : Int) (hw : 0 < w) (ha : 0 ≤ a) :
    0 ≤ ceilDivInt a w :=
  Int.ediv_nonneg (by omega) (by omega)

theorem ceilDivInt_mono (a b w : Int) (hw : 0 < w) (h : a ≤ b) :
    ceilDivInt a w ≤ ceilDivInt b w :=
  Int.ediv_le_ediv hw (by omega)

theorem ceilDivInt_add_w (a w : Int) (hw : 0 < w) :
    ceilDivInt (a + w) w = ceilDivInt a w + 1 := by
  unfold ceilDivInt
  rw [show a + w + w - 1 = (a + w - 1) + 1 * w by ring,
      Int.add_mul_ediv_right _ _ (by omega : w ≠ 0)]

/-- After one mapped step the buffer holds at most
`max (previous length) (ceil(span / w) + 1)` elements: the advance loop
only pops, and the record start is inside the front window when the
increment runs, so the span can touch at most `ceil(span / w) + 1`
windows from the front. -/
theorem mappedStep_length_bound (w : Int) (hw : 0 < w) (s : ProgState)
    (ts : Int) (c : List Char) :
    (((mappedStep w s ts c).1.windows.length : Nat) : Int) ≤
      max ((s.windows.length : Nat) : Int)
        (ceilDivInt ((sumTargetConsumingCigarOps c : Nat) : Int) w + 1) := by
  unfold mappedStep
  obtain ⟨m, heq, hpost, _⟩ :=
    advanceLoop_spec w ts hw s.windows s.current_window_start
  simp only [heq, incrementCounts_length]
  have hA : ts + (sumTargetConsumingCigarOps c : Int) - 1 + 1 -
      (s.current_window_start + (m : Int) * w) ≤
      (sumTargetConsumingCigarOps c : Int) + w - 1 := by linarith
  have hk : ceilDivInt (ts + (sumTargetConsumingCigarOps c : Int) - 1 + 1 -
      (s.current_window_start + (m : Int) * w)) w ≤
      ceilDivInt ((sumTargetConsumingCigarOps c : Int) + w) w :=
    ceilDivInt_mono _ _ _ hw (by linarith)
  rw [ceilDivInt_add_w _ _ hw] at hk
  have hB : 0 ≤ ceilDivInt ((sumTargetConsumingCigarOps c : Int)) w :=
    ceilDivInt_nonneg _ _ hw (by positivity)
  have hdrop : (s.windows.drop m).length = s.windows.length - m :=
    List.length_drop m s.windows
  push_cast [Nat.cast_max]
  omega

/-- One record never pushes the buffer length beyond the maximum of its
previous length and the record's own span bound. -/
theorem processRecord_length_bound (cl : List (String × Int)) (w : Int)
    (s : ProgState) (r : SamRecord) (s1 : ProgState) (out : List OutLine)
    (hw : 0 < w) (h : processRecord cl w s r = (Except.ok s1, out)) :
    ((s1.windows.length : Nat) : Int) ≤
      max ((s.windows.length : Nat) : Int)
        (ceilDivInt (((if r.cigar = ['*'] then 0
          else sumTargetConsumingCigarOps r.cigar) : Nat) : Int) w + 1) := by
  by_cases hstar : r.cigar = ['*']
  · rw [processRecord_unmapped cl w s r hstar] at h
    have hs : s = s1 := by
      have := congrArg Prod.fst h
      simpa using this
    rw [← hs]
    exact le_max_left _ _
  · rw [if_neg hstar]
    by_cases hchr : s.current_chr = r.target_name
    · rw [processRecord_same_chr cl w s r hstar hchr] at h
      have hs : (mappedStep w s r.target_start r.cigar).1 = s1 := by
        have := congrArg Prod.fst h
        simpa using this
      rw [← hs]
      exact mappedStep_length_bound w hw s r.target_start r.cigar
    · cases hlk : cl.lookup r.target_name with
      | none =>
        rw [processRecord_not_found cl w s r hstar hchr hlk] at h
        exact absurd (congrArg Prod.fst h) (by simp)
      | some len =>
        rw [processRecord_transition cl w s r len hstar hchr hlk] at h
        have hs : (mappedStep w ⟨[], r.target_name, len, 1⟩ r.target_start r.cigar).1 = s1 := by
          have := congrArg Prod.fst h
          simpa using this
        rw [← hs]
        have hb := mappedStep_length_bound w hw ⟨[], r.target_name, len, 1⟩
          r.target_start r.cigar
        have h0 : (((⟨[], r.target_name, len, 1⟩ : ProgState).windows.length : Nat) : Int) = 0 := rfl
        omega

theorem maxSpanSeen_cons (r : SamRecord) (rs : List SamRecord) :
    maxSpanSeen (r :: rs) =
      max (if r.cigar = ['*'] then 0 else sumTargetConsumingCigarOps r.cigar)
        (maxSpanSeen rs) := rfl

/-- The running buffer bound, threaded along the record loop. -/
theorem processRecords_length_bound (cl : List (String × Int)) (w : Int)
    (hw : 0 < w) (rs : List SamRecord) :
    ∀ (s s1 : ProgState) (out : List OutLine),
      processRecords cl w s rs = (Except.ok s1, out) →
      ((s1.windows.length : Nat) : Int) ≤
        max ((s.windows.length : Nat) : Int)
          (ceilDivInt ((maxSpanSeen rs : Nat) : Int) w + 1) := by
  induction rs with
  | nil =>
    intro s s1 out h
    have hs : s = s1 := by
      have := congrArg Prod.fst h
      simpa [processRecords] using this
    rw [← hs]
    exact le_max_left _ _
  | cons r rs ih =>
    intro s s1 out h
    simp only [processRecords] at h
    rcases hpr : processRecord cl w s r with ⟨res, outr⟩
    rw [hpr] at h
    cases res with
    | error e => exact absurd (congrArg Prod.fst h) (by simp)
    | ok s2 =>
      simp only at h
      rcases hq : processRecords cl w s2 rs with ⟨res2, out2⟩
      rw [hq] at h
      cases res2 with
      | error e => exact absurd (congrArg Prod.fst h) (by simp)
      | ok s3 =>
        have hs : s3 = s1 := by
          have := congrArg Prod.fst h
          simpa using this
        subst hs
        have hb1 := processRecord_length_bound cl w s r s2 outr hw hpr
        have hb2 := ih s2 s3 out2 hq
        have hmono1 : ceilDivInt (((if r.cigar = ['*'] then 0
            else sumTargetConsumingCigarOps r.cigar) : Nat) : Int) w ≤
            ceilDivInt ((maxSpanSeen (r :: rs) : Nat) : Int) w := by
          apply ceilDivInt_mono _ _ _ hw
          rw [maxSpanSeen_cons]
          push_cast [Nat.cast_max]
          omega
        have hmono2 : ceilDivInt ((maxSpanSeen rs : Nat) : Int) w ≤
            ceilDivInt ((maxSpanSeen (r :: rs) : Nat) : Int) w := by
          apply ceilDivInt_mono _ _ _ hw
          rw [maxSpanSeen_cons]
          push_cast [Nat.cast_max]
          omega
        omega

/-- Claim C8: at every point of the run (i.e. after every prefix of the
record stream that completes without error), the window buffer holds at
most `max 1 (ceil(longest_span / w) + 1)` elements, where
`longest_span` is the largest span of any record seen so far — a bound
independent of the reference lengths.  (The bound needs no sortedness
assumption; it holds for arbitrary streams, hence in particular for the
sorted streams of the claim.) -/
theorem C8_buffer_bound (cl : List (String × Int)) (w : Int)
    (records : List SamRecord) (n : Nat) (s1 : ProgState) (out : List OutLine)
    (hw : 0 < w)
    (h : processRecords cl w initState (records.take n) = (Except.ok s1, out)) :
    ((s1.windows.length : Nat) : Int) ≤
      max 1 (ceilDivInt ((maxSpanSeen (records.take n) : Nat) : Int) w + 1) := by
  have hb := processRecords_length_bound cl w hw (records.take n) initState s1 out h
  have h0 : (((initState : ProgState).windows.length : Nat) : Int) = 0 := rfl
  have hB : 0 ≤ ceilDivInt ((maxSpanSeen (records.take n) : Nat) : Int) w :=
    ceilDivInt_nonneg _ _ hw (by positivity)
  omega

/-- Witness for C8: one record of span 7 with window size 5 leaves a
buffer of 2 elements, within the bound `max 1 (ceil(7/5) + 1) = 3`. -/
theorem C8_witness :
    processRecords [("chr1", 10)] 5 initState
        (([⟨"chr1", 1, ['7', 'M']⟩] : List SamRecord).take 1) =
      (Except.ok (⟨[1, 1], "chr1", 10, 1⟩ : ProgState), [OutLine.fixedStep "chr1" 1 5 5]) ∧
    (((⟨[1, 1], "chr1", 10, 1⟩ : ProgState).windows.length : Nat) : Int) ≤
      max 1 (ceilDivInt
        ((maxSpanSeen (([⟨"chr1", 1, ['7', 'M']⟩] : List SamRecord).take 1) : Nat) : Int) 5 + 1) :=
  ⟨by rfl,
   C8_buffer_bound [("chr1", 10)] 5 [⟨"chr1", 1, ['7', 'M']⟩] 1
     ⟨[1, 1], "chr1", 10, 1⟩ [OutLine.fixedStep "chr1" 1 5 5] (by decide) (by rfl)⟩

/-! ### The per-reference emission invariant -/

theorem ceilDivInt_add_mul (a n w : Int) (hw : 0 < w) :
    ceilDivInt (a + n * w) w = ceilDivInt a w + n := by
  unfold ceilDivInt
  rw [show a + n * w + w - 1 = (a + w - 1) + n * w by ring,
      Int.add_mul_ediv_right _ _ (by omega : w ≠ 0)]

theorem le_ceilDivInt_of_mul_le (n ℓ w : Int) (hw : 0 < w) (h : 1 + n * w ≤ ℓ) :
    n + 1 ≤ ceilDivInt ℓ w := by
  unfold ceilDivInt
  rw [Int.le_ediv_iff_mul_le hw]
  linarith

theorem ceilDivInt_pred_lt (A w : Int) (hw : 0 < w) (hA : 1 ≤ A) :
    (ceilDivInt A w - 1) * w < A := by
  by_contra hcon
  push_neg at hcon
  have hmono : ceilDivInt A w ≤ ceilDivInt ((ceilDivInt A w - 1) * w) w :=
    ceilDivInt_mono _ _ _ hw hcon
  rw [show (ceilDivInt A w - 1) * w = 0 + (ceilDivInt A w - 1) * w by ring,
      ceilDivInt_add_mul _ _ _ hw] at hmono
  have h0 : ceilDivInt 0 w = 0 := by
    unfold ceilDivInt
    exact Int.ediv_eq_zero_of_lt (by omega) (by omega)
  omega

/-- The number of count lines a flush prints, under the cursor
invariant: everything still pending for the reference. -/
theorem pyRange_length (a b s : Int) : (pyRange a b s).length = rangeCount a b s := by
  unfold pyRange
  rw [List.length_map, List.length_range]

theorem flushCounts_length (w : Int) (ws : List Nat) (e ℓ : Int) (hw : 0 < w)
    (he : 0 ≤ e) (hinv : e + (ws.length : Int) ≤ ceilDivInt ℓ w) :
    (((flushCounts w ws (1 + e * w) ℓ).length : Nat) : Int) = ceilDivInt ℓ w - e := by
  unfold flushCounts
  simp only [List.length_append, List.length_map, pyRange_length]
  unfold rangeCount
  have h2 : (ℓ + 1 - (1 + e * w + (ws.length : Int) * w) + w - 1) / w =
      ceilDivInt (ℓ + (-(e + (ws.length : Int))) * w) w := by
    unfold ceilDivInt
    congr 1
    ring
  rw [h2, ceilDivInt_add_mul _ _ _ hw]
  push_cast
  omega

/-- The initial state's flush is empty: no reference is active and the
declared length is 0. -/
theorem flushRef_init (w : Int) (hw : 0 < w) :
    flushRef w ([] : List Nat) 1 0 = [] := by
  unfold flushRef flushCounts pyRange rangeCount
  rw [show (0 : Int) + 1 - (1 + ((([] : List Nat).length : Nat) : Int) * w) + w - 1 =
        w - 1 by simp,
      Int.ediv_eq_zero_of_lt (by omega) (by omega)]
  rfl

/-- Invariant step for one mapped record processed on the current
reference: the cursor stays on a window boundary (`1 + e * w` with `e`
the number of windows emitted so far for this reference), the emitted
lines are the advance loop's count lines (one per emitted window), and
the buffer never reaches past window `ceil(len / w)` as long as the
record is contained in the reference. -/
theorem mappedStep_inv (w : Int) (hw : 0 < w) (ws : List Nat) (R : String)
    (ℓ e ts : Int) (c : List Char)
    (he : 0 ≤ e)
    (hinv : e + ((ws.length : Nat) : Int) ≤ ceilDivInt ℓ w)
    (hup : 1 + e * w ≤ max 1 ts)
    (hts : 1 ≤ ts)
    (hL : 1 ≤ ((sumTargetConsumingCigarOps c : Nat) : Int))
    (hte : ts + ((sumTargetConsumingCigarOps c : Nat) : Int) - 1 ≤ ℓ) :
    ∃ (e1 : Int) (ws1 : List Nat) (em : List Nat),
      mappedStep w ⟨ws, R, ℓ, 1 + e * w⟩ ts c =
        (⟨ws1, R, ℓ, 1 + e1 * w⟩, em.map OutLine.count) ∧
      e ≤ e1 ∧ ((em.length : Nat) : Int) = e1 - e ∧
      e1 + ((ws1.length : Nat) : Int) ≤ ceilDivInt ℓ w ∧
      1 + e1 * w ≤ max 1 ts := by
  have hmax : max 1 ts = ts := max_eq_right hts
  rw [hmax] at hup
  unfold mappedStep
  obtain ⟨m, heq, hpost, hleft⟩ := advanceLoop_spec w ts hw ws (1 + e * w)
  simp only [heq]
  set L : Int := ((sumTargetConsumingCigarOps c : Nat) : Int) with hLdef
  set k : Int := ceilDivInt (ts + L - 1 + 1 - (1 + e * w + (m : Int) * w)) w with hkdef
  have hcle : 1 + e * w + (m : Int) * w ≤ ts := by
    rcases hleft with h0 | hmore
    · subst h0
      push_cast
      linarith
    · exact hmore
  have hA : 1 ≤ ts + L - 1 + 1 - (1 + e * w + (m : Int) * w) := by linarith
  have hk1 : 1 ≤ k := by
    rw [hkdef]
    have := le_ceilDivInt_of_mul_le 0 (ts + L - 1 + 1 - (1 + e * w + (m : Int) * w)) w hw
      (by linarith)
    omega
  have hg1 : m = 0 ∨ e + (m : Int) + 1 ≤ ceilDivInt ℓ w := by
    rcases hleft with h0 | hmore
    · exact Or.inl h0
    · refine Or.inr ?_
      have := le_ceilDivInt_of_mul_le (e + (m : Int)) ℓ w hw (by linarith)
      omega
  have hg2 : e + (m : Int) + k ≤ ceilDivInt ℓ w := by
    have hlt := ceilDivInt_pred_lt _ w hw hA
    rw [← hkdef] at hlt
    have := le_ceilDivInt_of_mul_le (e + (m : Int) + k - 1) ℓ w hw (by linarith)
    omega
  refine ⟨e + (m : Int),
    incrementCountsForCoveredWindows (ws.drop m) (1 + e * w + (m : Int) * w) ts
      (ts + L - 1) L w,
    ws.take m ++ List.replicate (m - ws.length) 0, ?_, by omega, ?_, ?_, ?_⟩
  · rw [show 1 + e * w + (m : Int) * w = 1 + (e + (m : Int)) * w by ring]
  · simp only [List.length_append, List.length_take, List.length_replicate]
    push_cast
    omega
  · rw [incrementCounts_length]
    rw [← hkdef]
    have hdrop : (ws.drop m).length = ws.length - m := List.length_drop m ws
    push_cast [Nat.cast_max]
    omega
  · rw [hmax]
    linarith

/-! ### Assembling whole references and whole runs -/

/-- Dropping the unmapped records from the stream does not change the
run at all. -/
theorem processRecords_filter_star (cl : List (String × Int)) (w : Int)
    (rs : List SamRecord) : ∀ s : ProgState,
    processRecords cl w s (rs.filter (fun r => !(decide (r.cigar = ['*'])))) =
      processRecords cl w s rs := by
  induction rs with
  | nil => intro s; rfl
  | cons r rs ih =>
    intro s
    by_cases hstar : r.cigar = ['*']
    · have h2 : processRecords cl w s (r :: rs) = processRecords cl w s rs := by
        simp only [processRecords, processRecord_unmapped cl w s r hstar]
        rcases hq : processRecords cl w s rs with ⟨res, out⟩
        simp
      rw [h2, List.filter_cons, if_neg (by simp [hstar])]
      exact ih s
    · rw [List.filter_cons, if_pos (by simp [hstar])]
      simp only [processRecords, ih]

theorem processRecords_append_ok (cl : List (String × Int)) (w : Int)
    (l1 : List SamRecord) :
    ∀ (s s2 : ProgState) (out : List OutLine),
      processRecords cl w s l1 = (Except.ok s2, out) →
      ∀ l2 : List SamRecord,
        processRecords cl w s (l1 ++ l2) =
          ((processRecords cl w s2 l2).1, out ++ (processRecords cl w s2 l2).2) := by
  induction l1 with
  | nil =>
    intro s s2 out h l2
    have hs : s = s2 := by
      have := congrArg Prod.fst h
      simpa [processRecords] using this
    have ho : out = [] := by
      have := congrArg Prod.snd h
      simpa [processRecords] using this.symm
    subst hs
    subst ho
    simp
  | cons r l1 ih =>
    intro s s2 out h l2
    simp only [processRecords] at h
    simp only [List.cons_append, List.append_eq, processRecords]
    rcases hpr : processRecord cl w s r with ⟨res, outr⟩
    rw [hpr] at h
    cases res with
    | error e =>
      exact absurd (congrArg Prod.fst h) (by simp)
    | ok s1 =>
      simp only at h
      rcases hq : processRecords cl w s1 l1 with ⟨res1, out1⟩
      rw [hq] at h
      cases res1 with
      | error e => exact absurd (congrArg Prod.fst h) (by simp)
      | ok s3 =>
        have h3 : s3 = s2 := by
          have := congrArg Prod.fst h
          simpa using this
        have ho : outr ++ out1 = out := by
          have := congrArg Prod.snd h
          simpa using this
        subst h3
        simp only [ih s1 s3 out1 hq]
        simp [← ho, List.append_assoc]

theorem runFrom_append_ok (cl : List (String × Int)) (w : Int)
    (l1 l2 : List SamRecord) (s s2 : ProgState) (out : List OutLine)
    (h : processRecords cl w s l1 = (Except.ok s2, out)) :
    runFrom cl w s (l1 ++ l2) =
      ((runFrom cl w s2 l2).1, out ++ (runFrom cl w s2 l2).2) := by
  unfold runFrom
  rw [processRecords_append_ok cl w l1 s s2 out h l2]
  rcases hq : processRecords cl w s2 l2 with ⟨res, out2⟩
  cases res with
  | ok s3 => simp
  | error e => simp

/-- Invariant for a run of mapped records on the active reference:
states stay on window boundaries, every printed line is a count line,
and one line is printed per window the cursor passes. -/
theorem processBlock_inv (cl : List (String × Int)) (w : Int) (hw : 0 < w)
    (R : String) (ℓ : Int) (rs : List SamRecord) :
    ∀ (ws : List Nat) (e t0 : Int),
      0 ≤ e →
      e + ((ws.length : Nat) : Int) ≤ ceilDivInt ℓ w →
      1 + e * w ≤ max 1 t0 →
      1 ≤ t0 →
      List.Chain' (· ≤ ·) (t0 :: rs.map SamRecord.target_start) →
      (∀ r ∈ rs, r.target_name = R ∧ ¬ r.cigar = ['*'] ∧ 1 ≤ r.target_start ∧
        1 ≤ ((sumTargetConsumingCigarOps r.cigar : Nat) : Int) ∧
        r.target_start + ((sumTargetConsumingCigarOps r.cigar : Nat) : Int) - 1 ≤ ℓ) →
      ∃ (e1 : Int) (ws1 : List Nat) (em : List Nat),
        processRecords cl w (⟨ws, R, ℓ, 1 + e * w⟩ : ProgState) rs =
          (Except.ok (⟨ws1, R, ℓ, 1 + e1 * w⟩ : ProgState), em.map OutLine.count) ∧
        e ≤ e1 ∧ ((em.length : Nat) : Int) = e1 - e ∧
        e1 + ((ws1.length : Nat) : Int) ≤ ceilDivInt ℓ w ∧ 0 ≤ e1 := by
  induction rs with
  | nil =>
    intro ws e t0 he hinv hup ht0 hchain hrec
    exact ⟨e, ws, [], by simp [processRecords], le_refl e, by simp, hinv, he⟩
  | cons r rs ih =>
    intro ws e t0 he hinv hup ht0 hchain hrec
    obtain ⟨hname, hstar, hts, hL, hte⟩ := hrec r (by simp)
    simp only [List.map_cons] at hchain
    obtain ⟨ht0r, hchain'⟩ := List.chain'_cons.mp hchain
    have hup' : 1 + e * w ≤ max 1 r.target_start :=
      le_trans hup (max_le_max (le_refl 1) ht0r)
    obtain ⟨e1, ws1, em, hms, hee, hlen, hinv1, hup1⟩ :=
      mappedStep_inv w hw ws R ℓ e r.target_start r.cigar he hinv hup' hts hL hte
    have hsame : (⟨ws, R, ℓ, 1 + e * w⟩ : ProgState).current_chr = r.target_name :=
      hname.symm
    have hpr : processRecord cl w ⟨ws, R, ℓ, 1 + e * w⟩ r =
        (Except.ok (⟨ws1, R, ℓ, 1 + e1 * w⟩ : ProgState), em.map OutLine.count) := by
      rw [processRecord_same_chr cl w _ r hstar hsame, hms]
    obtain ⟨e2, ws2, em2, hrec2, hee2, hlen2, hinv2, he2⟩ :=
      ih ws1 e1 r.target_start (le_trans he hee) hinv1 hup1 hts hchain'
        (fun q hq => hrec q (by simp [hq]))
    refine ⟨e2, ws2, em ++ em2, ?_, le_trans hee hee2, ?_, hinv2, he2⟩
    · simp only [processRecords, hpr]
      rw [hrec2]
      simp [List.map_append]
    · push_cast [List.length_append]
      omega

/-- Processing a whole reference block from the outside: the previous
reference is flushed, the step declaration is printed, and the block's
records are processed under the invariant. -/
theorem processBlockStart (cl : List (String × Int)) (w : Int) (hw : 0 < w)
    (s : ProgState) (R : String) (ℓ : Int) (r : SamRecord) (rs : List SamRecord)
    (hchr : ¬ s.current_chr = R)
    (hlk : cl.lookup R = some ℓ)
    (hsort : List.Chain' (· ≤ ·) ((r :: rs).map SamRecord.target_start))
    (hrec : ∀ q ∈ r :: rs, q.target_name = R ∧ ¬ q.cigar = ['*'] ∧ 1 ≤ q.target_start ∧
      1 ≤ ((sumTargetConsumingCigarOps q.cigar : Nat) : Int) ∧
      q.target_start + ((sumTargetConsumingCigarOps q.cigar : Nat) : Int) - 1 ≤ ℓ) :
    ∃ (e1 : Int) (ws1 : List Nat) (em : List Nat),
      processRecords cl w s (r :: rs) =
        (Except.ok (⟨ws1, R, ℓ, 1 + e1 * w⟩ : ProgState),
         flushRef w s.windows s.current_window_start s.current_chr_len ++
           OutLine.fixedStep R 1 w w :: em.map OutLine.count) ∧
      0 ≤ e1 ∧ ((em.length : Nat) : Int) = e1 ∧
      e1 + ((ws1.length : Nat) : Int) ≤ ceilDivInt ℓ w := by
  obtain ⟨hname, hstar, hts, hL, hte⟩ := hrec r (by simp)
  have hceil0 : (0 : Int) + 0 ≤ ceilDivInt ℓ w := by
    have := le_ceilDivInt_of_mul_le 0 ℓ w hw (by linarith)
    omega
  obtain ⟨ea, wsa, ema, hms, hea, hlena, hinva, hupa⟩ :=
    mappedStep_inv w hw [] R ℓ 0 r.target_start r.cigar (le_refl 0)
      (by simpa using hceil0)
      (by rw [show (1 : Int) + 0 * w = 1 by ring]; exact le_max_left 1 _) hts hL hte
  rw [show (1 : Int) + 0 * w = 1 by ring] at hms
  have hchr' : ¬ s.current_chr = r.target_name := by rw [hname]; exact hchr
  have hlk' : cl.lookup r.target_name = some ℓ := by rw [hname]; exact hlk
  have hpr : processRecord cl w s r =
      (Except.ok (⟨wsa, R, ℓ, 1 + ea * w⟩ : ProgState),
       flushRef w s.windows s.current_window_start s.current_chr_len ++
         OutLine.fixedStep R 1 w w :: ema.map OutLine.count) := by
    rw [processRecord_transition cl w s r ℓ hstar hchr' hlk', hname, hms]
  have hchain2 : List.Chain' (· ≤ ·) (r.target_start :: rs.map SamRecord.target_start) := by
    simpa using hsort
  obtain ⟨e2, ws2, em2, hrec2, hee2, hlen2, hinv2, he2⟩ :=
    processBlock_inv cl w hw R ℓ rs wsa ea r.target_start hea hinva hupa hts hchain2
      (fun q hq => hrec q (by simp [hq]))
  refine ⟨e2, ws2, ema ++ em2, ?_, he2, ?_, hinv2⟩
  · simp only [processRecords, hpr]
    rw [hrec2]
    simp [List.map_append, List.append_assoc]
  · push_cast [List.length_append]
    omega

/-- Processing a grouped stream block by block: each block contributes
its step declaration followed by exactly its reference's count lines,
and the final flush completes the last block. -/
theorem runFrom_blocks (cl : List (String × Int)) (w : Int) (hw : 0 < w) :
    ∀ (blocks : List (String × Int × List SamRecord)),
    ∀ s : ProgState,
      List.Chain' (· ≠ ·) (s.current_chr :: blocks.map (fun b => b.1)) →
      (∀ b ∈ blocks, b.2.2 ≠ [] ∧ cl.lookup b.1 = some b.2.1 ∧
        List.Chain' (· ≤ ·) (b.2.2.map SamRecord.target_start) ∧
        ∀ r ∈ b.2.2, r.target_name = b.1 ∧ ¬ r.cigar = ['*'] ∧ 1 ≤ r.target_start ∧
          1 ≤ ((sumTargetConsumingCigarOps r.cigar : Nat) : Int) ∧
          r.target_start + ((sumTargetConsumingCigarOps r.cigar : Nat) : Int) - 1 ≤ b.2.1) →
      ∃ counts : List (List Nat),
        counts.length = blocks.length ∧
        runFrom cl w s (List.join (blocks.map (fun b => b.2.2))) =
          (Except.ok (),
           flushRef w s.windows s.current_window_start s.current_chr_len ++
             List.join ((blocks.zip counts).map (fun bc =>
               OutLine.fixedStep bc.1.1 1 w w :: bc.2.map OutLine.count))) ∧
        ∀ bc ∈ blocks.zip counts,
          ((bc.2.length : Nat) : Int) = ceilDivInt bc.1.2.1 w := by
  intro blocks
  induction blocks with
  | nil =>
    intro s hchain hb
    refine ⟨[], rfl, ?_, by simp⟩
    simp [runFrom, processRecords]
  | cons b rest ih =>
    intro s hchain hb
    obtain ⟨hne, hlk, hsort, hrec⟩ := hb b (by simp)
    obtain ⟨r, rs, hbeq⟩ := List.exists_cons_of_ne_nil hne
    rw [List.map_cons] at hchain
    obtain ⟨hchr, hchainrest⟩ := List.chain'_cons.mp hchain
    rw [hbeq] at hsort hrec
    obtain ⟨e1, ws1, em, hblock, he1, hlen1, hinv1⟩ :=
      processBlockStart cl w hw s b.1 b.2.1 r rs hchr hlk hsort hrec
    obtain ⟨counts, hclen, hrun, hceil⟩ :=
      ih (⟨ws1, b.1, b.2.1, 1 + e1 * w⟩ : ProgState) hchainrest
        (fun q hq => hb q (by simp [hq]))
    refine ⟨(em ++ flushCounts w ws1 (1 + e1 * w) b.2.1) :: counts,
      by simp [hclen], ?_, ?_⟩
    · have hjoin : List.join ((b :: rest).map (fun b => b.2.2)) =
          b.2.2 ++ List.join (rest.map (fun b => b.2.2)) := by simp
      rw [hjoin, hbeq,
          runFrom_append_ok cl w (r :: rs) (List.join (rest.map (fun b => b.2.2))) s
            (⟨ws1, b.1, b.2.1, 1 + e1 * w⟩ : ProgState) _ hblock]
      rw [hrun]
      simp [flushRef, List.map_append, List.append_assoc]
    · intro bc hbc
      simp only [List.zip_cons_cons, List.mem_cons] at hbc
      rcases hbc with hbc | hbc
      · subst hbc
        have hfl := flushCounts_length w ws1 e1 b.2.1 hw he1 hinv1
        push_cast [List.length_append] at hfl ⊢
        omega
      · exact hceil bc hbc

/-- Claim C4: for a stream whose mapped records are grouped by
reference (references pairwise distinct — sorted by reference and never
revisited) with non-decreasing start positions inside each group, all
references present in the header, and every alignment contained in its
reference's declared length, the run succeeds and its output decomposes
into one segment per reference, in first-seen order: the reference's
step declaration followed by exactly `ceil(reference_length /
window_size)` count lines.  Within a segment the count lines are the
reference's windows in strictly increasing start order (the i-th line
after the step declaration is the window starting at `1 + i *
window_size`, each window emitted exactly once).  Unmapped records may
appear anywhere in the stream (`hfilter` relates the stream to its
mapped blocks) and change nothing. -/
theorem C4_monotonic_emission (cl : List (String × Int)) (w : Int)
    (records : List SamRecord) (blocks : List (String × Int × List SamRecord))
    (hw : 0 < w)
    (hfilter : records.filter (fun r => !(decide (r.cigar = ['*']))) =
      List.join (blocks.map (fun b => b.2.2)))
    (hnodup : (blocks.map (fun b => b.1)).Nodup)
    (hnames : ∀ b ∈ blocks, ¬ b.1 = "")
    (hb : ∀ b ∈ blocks, b.2.2 ≠ [] ∧ cl.lookup b.1 = some b.2.1 ∧
      List.Chain' (· ≤ ·) (b.2.2.map SamRecord.target_start) ∧
      ∀ r ∈ b.2.2, r.target_name = b.1 ∧ ¬ r.cigar = ['*'] ∧ 1 ≤ r.target_start ∧
        1 ≤ ((sumTargetConsumingCigarOps r.cigar : Nat) : Int) ∧
        r.target_start + ((sumTargetConsumingCigarOps r.cigar : Nat) : Int) - 1 ≤ b.2.1) :
    ∃ counts : List (List Nat),
      counts.length = blocks.length ∧
      runProgram cl w records =
        (Except.ok (),
         List.join ((blocks.zip counts).map (fun bc =>
           OutLine.fixedStep bc.1.1 1 w w :: bc.2.map OutLine.count))) ∧
      ∀ bc ∈ blocks.zip counts,
        ((bc.2.length : Nat) : Int) = ceilDivInt bc.1.2.1 w := by
  have h1 : processRecords cl w initState records =
      processRecords cl w initState (List.join (blocks.map (fun b => b.2.2))) := by
    rw [← processRecords_filter_star cl w records initState, hfilter]
  have hrw : runProgram cl w records =
      runFrom cl w initState (List.join (blocks.map (fun b => b.2.2))) := by
    unfold runProgram runFrom
    rw [h1]
  have hchain : List.Chain' (· ≠ ·)
      ((initState : ProgState).current_chr :: blocks.map (fun b => b.1)) := by
    have hpw : (blocks.map (fun b => b.1)).Chain' (· ≠ ·) := List.Pairwise.chain' hnodup
    cases hbm : blocks.map (fun b => b.1) with
    | nil => simp
    | cons R1 restR =>
      rw [List.chain'_cons]
      constructor
      · have hmem : R1 ∈ blocks.map (fun b => b.1) := by rw [hbm]; simp
        obtain ⟨b, hbmem, hb1⟩ := List.mem_map.mp hmem
        intro hcontra
        exact hnames b hbmem (hb1.trans hcontra.symm)
      · rw [hbm] at hpw
        exact hpw
  obtain ⟨counts, hclen, hrun, hceil⟩ := runFrom_blocks cl w hw blocks initState hchain hb
  refine ⟨counts, hclen, ?_, hceil⟩
  rw [hrw, hrun]
  have hfl : flushRef w (initState : ProgState).windows
      (initState : ProgState).current_window_start
      (initState : ProgState).current_chr_len = [] := flushRef_init w hw
  rw [hfl, List.nil_append]

/-- Witness for C4: one reference block (`chr1`, length 10) holding the
single record `chr1 1 5M`, window size 5: the output is the step
declaration followed by `ceil(10 / 5) = 2` count lines. -/
theorem C4_witness :
    ∃ counts : List (List Nat),
      counts.length =
        ([("chr1", (10 : Int), [(⟨"chr1", 1, ['5', 'M']⟩ : SamRecord)])] :
          List (String × Int × List SamRecord)).length ∧
      runProgram [("chr1", 10)] 5 [⟨"chr1", 1, ['5', 'M']⟩] =
        (Except.ok (),
         List.join ((([("chr1", (10 : Int), [(⟨"chr1", 1, ['5', 'M']⟩ : SamRecord)])] :
             List (String × Int × List SamRecord)).zip counts).map (fun bc =>
           OutLine.fixedStep bc.1.1 1 5 5 :: bc.2.map OutLine.count))) ∧
      ∀ bc ∈ ([("chr1", (10 : Int), [(⟨"chr1", 1, ['5', 'M']⟩ : SamRecord)])] :
          List (String × Int × List SamRecord)).zip counts,
        ((bc.2.length : Nat) : Int) = ceilDivInt bc.1.2.1 5 :=
  C4_monotonic_emission [("chr1", 10)] 5 [⟨"chr1", 1, ['5', 'M']⟩]
    [("chr1", 10, [⟨"chr1", 1, ['5', 'M']⟩])] (by decide) (by rfl) (by decide)
    (by decide)
    (by
      intro b hbmem
      simp only [List.mem_singleton] at hbmem
      subst hbmem
      refine ⟨by decide, by rfl, by simp, ?_⟩
      intro r hr
      simp only [List.mem_singleton] at hr
      subst hr
      exact ⟨rfl, by decide, by decide, by decide, by decide⟩)

end Sam2CovWig
